import Mathlib

/-!
Verification development for the `fxd.minilexer` lexing engine
(`src/fxd/minilexer.py`).  The Python source is shallowly embedded:

* strings are `List Char`, Python string slices become `drop`/`take`;
* the token table (`lexer` dict) is an association list plus the
  distinguished `_begin` entry;
* the generator `Parser.iter_tokens` is embedded as a fuel-indexed
  stack machine `iterLoop` producing the whole finite trace the
  generator would yield (lazily produced in Python, but with the same
  observable order of yields and the same terminal error);
* the mutable `Parser` object is a record threaded through the
  functions that mutate it; the `current_readline` callable is
  externalised into an explicit list of pending input blocks, whose
  successive elements are the successive return values of the Python
  readline function (`''`, the falsy return, is the empty list);
* caller supplied hooks (`on_match`, `on_fail`) are embedded
  observationally as actions that either append a tag to an event log
  or raise, which is what the repository's tests do with them.
-/

namespace Minilexer

/-- Matched payloads (`match.group(0)`, the matched literal) are modelled
as the matched character list. -/
abbrev MatchVal := List Char

/-- Matchers of the source: `MS` (simple string matcher, lower-cased at
construction when `icase`), `MRE` (regular expression matcher, embedded
as the anchored match-length function of the compiled regex), and `MM`
(multi matcher trying its members in order). -/
inductive Matcher where
  | ms (string : List Char) (icase : Bool)
  | mre (f : List Char → Nat → Option Nat)
  | mm (args : List Matcher)

/-- `MS.__init__` lower-cases the stored string when `icase` is set. -/
def msMk (string : List Char) (icase : Bool) : Matcher :=
  Matcher.ms (if icase then string.map Char.toLower else string) icase

/-- The `match` key of a token record: either a `Matcher` instance (leaf
token) or an iterable of child token names (composite token). -/
inductive MatchRule where
  | matcher (m : Matcher)
  | names (cs : List String)

/-- The `after` key of a leaf token: a target state name, or a callable
producing one from the parser context (the callable sees the read
position, cf. `getattr(after, '__call__')` in `run_parser`). -/
inductive After where
  | static (name : String)
  | dyn (f : Nat × Nat × Nat × List Char → String)

/-- Caller-supplied hooks (`on_match` / `on_fail` / overridden
`on_bad_token`), embedded observationally: they either record a tag in
the parser's event log or raise an exception with a tag. -/
inductive HookAction where
  | record (tag : String)
  | raiseAbort (tag : String)

/-- A token record of the table: the optional `match`, `after`,
`on_match` and `on_fail` keys of the Python dict. -/
structure Token where
  matchRule : Option MatchRule
  after : Option After
  on_match : Option HookAction
  on_fail : Option HookAction

/-- The token table: the `_begin` entry plus the name → token mapping. -/
structure Lexer where
  begin : String
  table : List (String × Token)

/-- `self.lexer.get(name)`. -/
def Lexer.get (lexer : Lexer) (name : String) : Option Token :=
  (lexer.table.find? (fun kv => kv.1 == name)).map (·.2)

/-- The structured errors of `LexerError` (`error_id` plus its kwargs). -/
inductive LexerError where
  | e_token_not_found (name : String)
  | e_missing_match (name : String)
  | e_missing_after (name : String)
  | e_loop (name : String)
  | e_no_match (lineno : Nat) (pos : Nat)
  deriving DecidableEq, Repr

/-- One `(name, token)` pair yielded by `iter_tokens`. -/
abbrev Yield := String × Token

/-- The full observable trace of one `iter_tokens` generator: the leaf
tokens yielded in order, the composite names whose children were
iterated (`token_iter = iter(match)` events, recorded for the
redundancy-suppression property), and the terminal outcome: `none` if
the generator finished normally, `some e` if it raised `e` after the
listed yields. -/
structure IterOut where
  yields : List Yield
  pushes : List String
  term : Option LexerError

/-- The body of `Parser.iter_tokens`, embedded as a fuel-indexed stack
machine.  `cur` is the remaining part of the current `token_iter`,
`stack` the saved `(name, token_iter)` resumption frames, `onpath` and
`visited` the two sets of the source.  One unit of fuel is one
iteration of the source's `while True` loop; `none` means the fuel ran
out (`iterLoop_isSome` below shows the fuel chosen in `iterTokens`
never does). -/
def iterLoop (lexer : Lexer) :
    Nat → List String → List (String × List String) →
    Finset String → Finset String → Option IterOut
  | 0, _, _, _, _ => none
  | fuel+1, [], stack, onpath, visited =>
    match stack with
    | [] => some ⟨[], [], none⟩
    | (n, it) :: stack' => iterLoop lexer fuel it stack' (onpath.erase n) visited
  | fuel+1, name :: rest, stack, onpath, visited =>
    match lexer.get name with
    | none => some ⟨[], [], some (.e_token_not_found name)⟩
    | some token =>
      match token.matchRule with
      | none => some ⟨[], [], some (.e_missing_match name)⟩
      | some (.matcher _) =>
        match token.after with
        | none => some ⟨[], [], some (.e_missing_after name)⟩
        | some _ =>
          (iterLoop lexer fuel rest stack onpath visited).map
            (fun o => { o with yields := (name, token) :: o.yields })
      | some (.names cs) =>
        if name ∈ onpath then some ⟨[], [], some (.e_loop name)⟩
        else if name ∈ visited then iterLoop lexer fuel rest stack onpath visited
        else
          (iterLoop lexer fuel cs ((name, rest) :: stack)
              (insert name onpath) (insert name visited)).map
            (fun o => { o with pushes := name :: o.pushes })

/-- The list of children a composite name resolves to (empty for
non-composites); used only for fuel accounting. -/
def Lexer.children (lexer : Lexer) (name : String) : List String :=
  match lexer.get name with
  | some t =>
    match t.matchRule with
    | some (.names cs) => cs
    | _ => []
  | none => []

/-- Whether a name resolves to a composite token. -/
def Lexer.isComp (lexer : Lexer) (name : String) : Bool :=
  match lexer.get name with
  | some t =>
    match t.matchRule with
    | some (.names _) => true
    | _ => false
  | none => false

/-- The set of composite keys of the table. -/
def Lexer.compKeys (lexer : Lexer) : Finset String :=
  (lexer.table.map Prod.fst).toFinset.filter (fun k => lexer.isComp k)

/-- Total weight of the composites not yet visited: an upper bound on
the loop iterations their expansion can still cost. -/
def Lexer.unvisitedW (lexer : Lexer) (visited : Finset String) : Nat :=
  ∑ k ∈ lexer.compKeys \ visited, ((lexer.children k).length + 1)

/-- Weight of the saved resumption frames. -/
def stackW (stack : List (String × List String)) : Nat :=
  (stack.map (fun f => f.2.length + 1)).sum

/-- Fuel that always suffices for a full expansion from a single start
symbol. -/
def Lexer.iterFuel (lexer : Lexer) : Nat :=
  lexer.unvisitedW ∅ + 2

theorem Lexer.get_eq_some_mem {lexer : Lexer} {name : String} {t : Token}
    (h : lexer.get name = some t) : name ∈ lexer.table.map Prod.fst := by
  unfold Lexer.get at h
  cases hf : lexer.table.find? (fun kv => kv.1 == name) with
  | none => rw [hf] at h; simp at h
  | some kv =>
    have hmem := List.mem_of_find?_eq_some hf
    have hp := List.find?_some hf
    simp only [beq_iff_eq] at hp
    exact hp ▸ List.mem_map.mpr ⟨kv, hmem, rfl⟩

theorem mem_compKeys {lexer : Lexer} {name : String} {t : Token} {cs : List String}
    (hget : lexer.get name = some t) (hmr : t.matchRule = some (.names cs)) :
    name ∈ lexer.compKeys := by
  unfold Lexer.compKeys
  rw [Finset.mem_filter]
  refine ⟨List.mem_toFinset.mpr (Lexer.get_eq_some_mem hget), ?_⟩
  simp [Lexer.isComp, hget, hmr]

theorem children_eq {lexer : Lexer} {name : String} {t : Token} {cs : List String}
    (hget : lexer.get name = some t) (hmr : t.matchRule = some (.names cs)) :
    lexer.children name = cs := by
  simp [Lexer.children, hget, hmr]

theorem unvisitedW_split (lexer : Lexer) {name : String} {visited : Finset String}
    (hmem : name ∈ lexer.compKeys) (hnv : name ∉ visited) :
    lexer.unvisitedW visited =
      ((lexer.children name).length + 1) + lexer.unvisitedW (insert name visited) := by
  unfold Lexer.unvisitedW
  rw [Finset.sdiff_insert]
  exact (Finset.add_sum_erase _ (fun k => (lexer.children k).length + 1)
    (Finset.mem_sdiff.mpr ⟨hmem, hnv⟩)).symm

/-- The chosen fuel bound is enough: `iter_tokens` always terminates
(every composite is expanded at most once, so the total work is bounded
by the weight of the unvisited composites plus the pending iterators). -/
theorem iterLoop_isSome (lexer : Lexer) :
    ∀ fuel cur stack onpath visited,
      cur.length + 1 + stackW stack + lexer.unvisitedW visited ≤ fuel →
      (iterLoop lexer fuel cur stack onpath visited).isSome := by
  intro fuel
  induction fuel with
  | zero => intro cur stack onpath visited h; omega
  | succ fuel ih =>
    intro cur stack onpath visited h
    cases cur with
    | nil =>
      cases stack with
      | nil => simp [iterLoop]
      | cons fr stack' =>
        obtain ⟨n, it⟩ := fr
        simp only [iterLoop]
        apply ih
        simp only [stackW, List.map_cons, List.sum_cons, List.length_nil] at h ⊢
        omega
    | cons name rest =>
      simp only [iterLoop]
      cases hget : lexer.get name with
      | none => simp
      | some token =>
        dsimp only
        cases hmr : token.matchRule with
        | none => simp [hmr]
        | some mr =>
          cases mr with
          | matcher m =>
            dsimp only
            cases hafter : token.after with
            | none => simp [hafter]
            | some a =>
              simp only [Option.isSome_map']
              apply ih
              simp only [List.length_cons] at h
              omega
          | names cs =>
            by_cases hop : name ∈ onpath
            · simp [hop]
            · by_cases hv : name ∈ visited
              · simp only [hop, if_false, hv, if_true]
                apply ih
                simp only [List.length_cons] at h
                omega
              · simp only [hop, if_false, hv, if_true, Option.isSome_map']
                apply ih
                have hsplit := unvisitedW_split lexer (mem_compKeys hget hmr) hv
                rw [children_eq hget hmr] at hsplit
                simp only [stackW, List.map_cons, List.sum_cons,
                  List.length_cons] at h ⊢
                omega

/-- `Parser.iter_tokens(name)`: the full trace of the generator, run to
completion with sufficient fuel. -/
def iterTokens (lexer : Lexer) (name : String) : IterOut :=
  (iterLoop lexer lexer.iterFuel [name] [] ∅ ∅).get (by
    apply iterLoop_isSome
    simp only [Lexer.iterFuel, stackW, List.length_cons, List.length_nil,
      List.map_nil, List.sum_nil]
    omega)

/-! ### The specification-side resolver

A second definition of the decision sequence, following the words of
the spec rather than the source: a recursive, left-to-right,
depth-first expansion of the composite graph, with on-path loop
detection and visited-set redundancy suppression, yielding the leaf
tokens in visit order.  `iterTokens` is proved to refine it. -/

/-- Result of the declarative depth-first flattening: the leaf tokens
in visit order, the visited set afterwards, and the terminal outcome. -/
structure DfsOut where
  yields : List Yield
  visited : Finset String
  term : Option LexerError

/-- One nesting level of the declarative depth-first expansion: process
a list of sibling names left to right; `rec` expands the children of a
newly entered composite (one level deeper). -/
def dfsGo (lexer : Lexer)
    (rec : List String → Finset String → Finset String → Option DfsOut) :
    List String → Finset String → Finset String → Option DfsOut
  | [], _, visited => some ⟨[], visited, none⟩
  | n :: rest, onpath, visited =>
    match lexer.get n with
    | none => some ⟨[], visited, some (.e_token_not_found n)⟩
    | some t =>
      match t.matchRule with
      | none => some ⟨[], visited, some (.e_missing_match n)⟩
      | some (.matcher _) =>
        match t.after with
        | none => some ⟨[], visited, some (.e_missing_after n)⟩
        | some _ =>
          (dfsGo lexer rec rest onpath visited).map
            (fun o => { o with yields := (n, t) :: o.yields })
      | some (.names cs) =>
        if n ∈ onpath then some ⟨[], visited, some (.e_loop n)⟩
        else if n ∈ visited then dfsGo lexer rec rest onpath visited
        else
          match rec cs (insert n onpath) (insert n visited) with
          | none => none
          | some ⟨ys, v1, some e⟩ => some ⟨ys, v1, some e⟩
          | some ⟨ys, v1, none⟩ =>
            (dfsGo lexer rec rest onpath v1).map
              (fun o => { o with yields := ys ++ o.yields })

/-- The declarative depth-first expansion, indexed by the allowed
composite nesting depth (any depth above the number of composite names
gives the same answer, cf. `dfsNames_mono`). -/
def dfsNames (lexer : Lexer) : Nat →
    List String → Finset String → Finset String → Option DfsOut
  | 0 => fun _ _ _ => none
  | b+1 => dfsGo lexer (dfsNames lexer b)

/-- Number of composite names not yet visited; bounds the nesting depth
the expansion can still need. -/
def Lexer.uCard (lexer : Lexer) (visited : Finset String) : Nat :=
  (lexer.compKeys \ visited).card

/-- A depth budget sufficient for any expansion of the table. -/
def Lexer.dfsBudget (lexer : Lexer) : Nat :=
  lexer.compKeys.card + 1

/-- The left-to-right, depth-first flattening of the composite graph
from a start symbol, as the spec declares it. -/
def dfsFlatten (lexer : Lexer) (start : String) : Option DfsOut :=
  dfsNames lexer lexer.dfsBudget [start] ∅ ∅

theorem dfsGo_mono {lexer : Lexer}
    {rec rec' : List String → Finset String → Finset String → Option DfsOut}
    (hrec : ∀ cs onpath visited r, rec cs onpath visited = some r →
      rec' cs onpath visited = some r) :
    ∀ names onpath visited r, dfsGo lexer rec names onpath visited = some r →
      dfsGo lexer rec' names onpath visited = some r := by
  intro names
  induction names with
  | nil => intro onpath visited r h; exact h
  | cons n rest ih =>
    intro onpath visited r h
    simp only [dfsGo] at h ⊢
    cases hget : lexer.get n with
    | none => rw [hget] at h; exact h
    | some t =>
      rw [hget] at h
      try dsimp only at h ⊢
      cases hmr : t.matchRule with
      | none => rw [hmr] at h; exact h
      | some mr =>
        rw [hmr] at h
        try dsimp only at h ⊢
        cases mr with
        | matcher m =>
          cases hafter : t.after with
          | none => rw [hafter] at h; exact h
          | some a =>
            rw [hafter] at h
            try dsimp only at h ⊢
            rw [Option.map_eq_some'] at h
            obtain ⟨o, ho, rfl⟩ := h
            rw [Option.map_eq_some']
            exact ⟨o, ih _ _ _ ho, rfl⟩
        | names cs =>
          try dsimp only at h ⊢
          by_cases hop : n ∈ onpath
          · rw [if_pos hop] at h ⊢; exact h
          · rw [if_neg hop] at h ⊢
            by_cases hv : n ∈ visited
            · rw [if_pos hv] at h ⊢; exact ih _ _ _ h
            · rw [if_neg hv] at h ⊢
              cases hrec0 : rec cs (insert n onpath) (insert n visited) with
              | none => rw [hrec0] at h; simp at h
              | some o =>
                rw [hrec0] at h
                rw [hrec _ _ _ _ hrec0]
                obtain ⟨ys, v1, tm⟩ := o
                cases tm with
                | some e => exact h
                | none =>
                  try dsimp only at h ⊢
                  rw [Option.map_eq_some'] at h
                  obtain ⟨o2, ho2, rfl⟩ := h
                  rw [Option.map_eq_some']
                  exact ⟨o2, ih _ _ _ ho2, rfl⟩

theorem dfsNames_mono_succ {lexer : Lexer} :
    ∀ b names onpath visited r,
      dfsNames lexer b names onpath visited = some r →
      dfsNames lexer (b+1) names onpath visited = some r := by
  intro b
  induction b with
  | zero => intro names onpath visited r h; simp [dfsNames] at h
  | succ b ih =>
    intro names onpath visited r h
    exact dfsGo_mono (fun cs op v r' hr => ih cs op v r' hr) names onpath visited r h

theorem dfsNames_mono {lexer : Lexer} {b b' : Nat} (hb : b ≤ b') :
    ∀ names onpath visited r,
      dfsNames lexer b names onpath visited = some r →
      dfsNames lexer b' names onpath visited = some r := by
  induction hb with
  | refl => intro _ _ _ _ h; exact h
  | step _ ih =>
    intro names onpath visited r h
    exact dfsNames_mono_succ _ _ _ _ _ (ih names onpath visited r h)

/-- Resuming semantics of a partially expanded stack state: process the
current iterator, then each saved frame, threading yields and the
visited set; used to relate the source's stack machine to the
declarative expansion. -/
def dfsResume (lexer : Lexer) (b : Nat) :
    List String → List (String × List String) →
    Finset String → Finset String → Option DfsOut
  | cur, [], onpath, visited => dfsNames lexer b cur onpath visited
  | cur, (n, it) :: stack, onpath, visited =>
    match dfsNames lexer b cur onpath visited with
    | none => none
    | some ⟨ys, v1, some e⟩ => some ⟨ys, v1, some e⟩
    | some ⟨ys, v1, none⟩ =>
      (dfsResume lexer b it stack (onpath.erase n) v1).map
        (fun o => { o with yields := ys ++ o.yields })

theorem dfsResume_mono {lexer : Lexer} {b b' : Nat} (hb : b ≤ b') :
    ∀ stack cur onpath visited r,
      dfsResume lexer b cur stack onpath visited = some r →
      dfsResume lexer b' cur stack onpath visited = some r := by
  intro stack
  induction stack with
  | nil => intro cur onpath visited r h; exact dfsNames_mono hb _ _ _ _ h
  | cons fr stack ih =>
    obtain ⟨n, it⟩ := fr
    intro cur onpath visited r h
    simp only [dfsResume] at h ⊢
    cases h0 : dfsNames lexer b cur onpath visited with
    | none => rw [h0] at h; simp at h
    | some o =>
      rw [h0] at h
      rw [dfsNames_mono hb _ _ _ _ h0]
      obtain ⟨ys, v1, tm⟩ := o
      cases tm with
      | some e => exact h
      | none =>
        try dsimp only at h ⊢
        rw [Option.map_eq_some'] at h
        obtain ⟨o2, ho2, rfl⟩ := h
        rw [Option.map_eq_some']
        exact ⟨o2, ih _ _ _ _ ho2, rfl⟩

theorem dfsResume_of_err {lexer : Lexer} {b : Nat} {cur stack onpath visited ys v1 e}
    (h : dfsNames lexer b cur onpath visited = some ⟨ys, v1, some e⟩) :
    dfsResume lexer b cur stack onpath visited = some ⟨ys, v1, some e⟩ := by
  cases stack with
  | nil => exact h
  | cons fr stack =>
    obtain ⟨n, it⟩ := fr
    simp only [dfsResume]
    rw [h]

theorem dfsResume_frame_ok {lexer : Lexer} {b : Nat} {cur n it stack onpath visited ys1 v1}
    (h : dfsNames lexer b cur onpath visited = some ⟨ys1, v1, none⟩) :
    dfsResume lexer b cur ((n, it)::stack) onpath visited =
      (dfsResume lexer b it stack (onpath.erase n) v1).map
        (fun o => { o with yields := ys1 ++ o.yields }) := by
  simp only [dfsResume]
  rw [h]

theorem dfsNames_cons_leaf {lexer : Lexer} {b n t rest onpath visited}
    (hget : lexer.get n = some t) {m} (hmr : t.matchRule = some (.matcher m))
    {a} (hafter : t.after = some a) :
    dfsNames lexer (b+1) (n::rest) onpath visited =
      (dfsNames lexer (b+1) rest onpath visited).map
        (fun o => { o with yields := (n, t) :: o.yields }) := by
  conv_lhs => rw [dfsNames]
  conv_rhs => rw [dfsNames]
  simp only [dfsGo, hget, hmr, hafter]

theorem dfsResume_cons_leaf {lexer : Lexer} {b n t rest stack onpath visited}
    (hget : lexer.get n = some t) {m} (hmr : t.matchRule = some (.matcher m))
    {a} (hafter : t.after = some a) :
    dfsResume lexer (b+1) (n::rest) stack onpath visited =
      (dfsResume lexer (b+1) rest stack onpath visited).map
        (fun o => { o with yields := (n, t) :: o.yields }) := by
  cases stack with
  | nil => exact dfsNames_cons_leaf hget hmr hafter
  | cons fr stack =>
    obtain ⟨nn, it⟩ := fr
    simp only [dfsResume]
    rw [dfsNames_cons_leaf hget hmr hafter]
    cases hrest : dfsNames lexer (b+1) rest onpath visited with
    | none => rfl
    | some o2 =>
      obtain ⟨ys2, v2, tm2⟩ := o2
      cases tm2 with
      | some e => rfl
      | none =>
        dsimp only [Option.map_some']
        cases dfsResume lexer (b+1) it stack (onpath.erase nn) v2 <;> rfl

theorem dfsNames_cons_skip {lexer : Lexer} {b n t cs rest onpath visited}
    (hget : lexer.get n = some t) (hmr : t.matchRule = some (.names cs))
    (hop : n ∉ onpath) (hv : n ∈ visited) :
    dfsNames lexer (b+1) (n::rest) onpath visited =
      dfsNames lexer (b+1) rest onpath visited := by
  conv_lhs => rw [dfsNames]
  conv_rhs => rw [dfsNames]
  simp only [dfsGo, hget, hmr, if_neg hop, if_pos hv]

theorem dfsResume_cons_skip {lexer : Lexer} {b n t cs rest stack onpath visited}
    (hget : lexer.get n = some t) (hmr : t.matchRule = some (.names cs))
    (hop : n ∉ onpath) (hv : n ∈ visited) :
    dfsResume lexer (b+1) (n::rest) stack onpath visited =
      dfsResume lexer (b+1) rest stack onpath visited := by
  cases stack with
  | nil => exact dfsNames_cons_skip hget hmr hop hv
  | cons fr stack =>
    obtain ⟨nn, it⟩ := fr
    simp only [dfsResume]
    rw [dfsNames_cons_skip hget hmr hop hv]

theorem dfsNames_cons_push {lexer : Lexer} {b n t cs rest onpath visited}
    (hget : lexer.get n = some t) (hmr : t.matchRule = some (.names cs))
    (hop : n ∉ onpath) (hv : n ∉ visited) :
    dfsNames lexer (b+1) (n::rest) onpath visited =
      match dfsNames lexer b cs (insert n onpath) (insert n visited) with
      | none => none
      | some ⟨ys, v1, some e⟩ => some ⟨ys, v1, some e⟩
      | some ⟨ys, v1, none⟩ =>
        (dfsNames lexer (b+1) rest onpath v1).map
          (fun o => { o with yields := ys ++ o.yields }) := by
  conv_lhs => rw [dfsNames]
  simp only [dfsGo, hget, hmr, if_neg hop, if_neg hv]
  cases dfsNames lexer b cs (insert n onpath) (insert n visited) with
  | none => rfl
  | some o1 =>
    obtain ⟨ys1, v1, tm1⟩ := o1
    cases tm1 <;> rfl

theorem dfsResume_push_ok {lexer : Lexer} {b n t cs rest stack onpath visited ys1 v1}
    (hget : lexer.get n = some t) (hmr : t.matchRule = some (.names cs))
    (hop : n ∉ onpath) (hv : n ∉ visited)
    (hin : dfsNames lexer b cs (insert n onpath) (insert n visited) =
      some ⟨ys1, v1, none⟩) :
    dfsResume lexer (b+1) (n::rest) stack onpath visited =
      (dfsResume lexer (b+1) rest stack onpath v1).map
        (fun o => { o with yields := ys1 ++ o.yields }) := by
  cases stack with
  | nil =>
    show dfsNames lexer (b+1) (n::rest) onpath visited = _
    rw [dfsNames_cons_push hget hmr hop hv, hin]
    rfl
  | cons fr stack =>
    obtain ⟨nn, it⟩ := fr
    simp only [dfsResume]
    rw [dfsNames_cons_push hget hmr hop hv, hin]
    dsimp only
    cases hrest : dfsNames lexer (b+1) rest onpath v1 with
    | none => rfl
    | some o2 =>
      obtain ⟨ys2, v2, tm2⟩ := o2
      cases tm2 with
      | some e => rfl
      | none =>
        dsimp only [Option.map_some']
        cases dfsResume lexer (b+1) it stack (onpath.erase nn) v2 with
        | none => rfl
        | some o3 => simp only [Option.map_some', List.append_assoc]

theorem uCard_lt_of_unvisited {lexer : Lexer} {n : String} {visited : Finset String}
    {t : Token} {cs : List String}
    (hget : lexer.get n = some t) (hmr : t.matchRule = some (.names cs))
    (hv : n ∉ visited) :
    lexer.uCard (insert n visited) + 1 ≤ lexer.uCard visited := by
  unfold Lexer.uCard
  rw [Finset.sdiff_insert]
  have hmem : n ∈ lexer.compKeys \ visited :=
    Finset.mem_sdiff.mpr ⟨mem_compKeys hget hmr, hv⟩
  rw [Finset.card_erase_of_mem hmem]
  have : 0 < (lexer.compKeys \ visited).card := Finset.card_pos.mpr ⟨n, hmem⟩
  omega

/-- Simulation: every trace of the source's stack machine is a trace of
the declarative depth-first flattening, with the same yields in the
same order and the same terminal outcome. -/
theorem iterLoop_sim (lexer : Lexer) :
    ∀ fuel cur stack onpath visited o,
      iterLoop lexer fuel cur stack onpath visited = some o →
      ∀ b, lexer.uCard visited < b →
        ∃ v, dfsResume lexer b cur stack onpath visited =
          some ⟨o.yields, v, o.term⟩ := by
  intro fuel
  induction fuel with
  | zero => intro cur stack onpath visited o h; simp [iterLoop] at h
  | succ fuel ih =>
    intro cur stack onpath visited o h b hb
    obtain ⟨b₀, rfl⟩ : ∃ b₀, b = b₀ + 1 := ⟨b - 1, by omega⟩
    cases cur with
    | nil =>
      cases stack with
      | nil =>
        simp only [iterLoop] at h
        obtain rfl : o = ⟨[], [], none⟩ := by injection h with h'; exact h'.symm
        refine ⟨visited, ?_⟩
        show dfsNames lexer (b₀+1) [] onpath visited = _
        rw [dfsNames]
        rfl
      | cons fr stack' =>
        obtain ⟨n, it⟩ := fr
        simp only [iterLoop] at h
        obtain ⟨v, hv⟩ := ih _ _ _ _ _ h (b₀+1) hb
        refine ⟨v, ?_⟩
        rw [dfsResume_frame_ok (show dfsNames lexer (b₀+1) [] onpath visited =
          some ⟨[], visited, none⟩ from by rw [dfsNames]; rfl), hv]
        simp
    | cons name rest =>
      simp only [iterLoop] at h
      cases hget : lexer.get name with
      | none =>
        rw [hget] at h
        obtain rfl : o = ⟨[], [], some (.e_token_not_found name)⟩ := by
          injection h with h'; exact h'.symm
        exact ⟨visited, dfsResume_of_err (by
          rw [dfsNames]; simp [dfsGo, hget])⟩
      | some token =>
        rw [hget] at h
        try dsimp only at h
        cases hmr : token.matchRule with
        | none =>
          rw [hmr] at h
          obtain rfl : o = ⟨[], [], some (.e_missing_match name)⟩ := by
            injection h with h'; exact h'.symm
          exact ⟨visited, dfsResume_of_err (by
            rw [dfsNames]; simp [dfsGo, hget, hmr])⟩
        | some mr =>
          rw [hmr] at h
          try dsimp only at h
          cases mr with
          | matcher m =>
            try dsimp only at h
            cases hafter : token.after with
            | none =>
              rw [hafter] at h
              obtain rfl : o = ⟨[], [], some (.e_missing_after name)⟩ := by
                injection h with h'; exact h'.symm
              exact ⟨visited, dfsResume_of_err (by
                rw [dfsNames]; simp [dfsGo, hget, hmr, hafter])⟩
            | some a =>
              rw [hafter] at h
              try dsimp only at h
              rw [Option.map_eq_some'] at h
              obtain ⟨o', ho', rfl⟩ := h
              obtain ⟨v, hv⟩ := ih _ _ _ _ _ ho' (b₀+1) hb
              refine ⟨v, ?_⟩
              rw [dfsResume_cons_leaf hget hmr hafter, hv]
              rfl
          | names cs =>
            try dsimp only at h
            by_cases hop : name ∈ onpath
            · rw [if_pos hop] at h
              obtain rfl : o = ⟨[], [], some (.e_loop name)⟩ := by
                injection h with h'; exact h'.symm
              exact ⟨visited, dfsResume_of_err (by
                rw [dfsNames]; simp [dfsGo, hget, hmr, if_pos hop])⟩
            · rw [if_neg hop] at h
              by_cases hvis : name ∈ visited
              · rw [if_pos hvis] at h
                obtain ⟨v, hv⟩ := ih _ _ _ _ _ h (b₀+1) hb
                refine ⟨v, ?_⟩
                rw [dfsResume_cons_skip hget hmr hop hvis]
                exact hv
              · rw [if_neg hvis] at h
                rw [Option.map_eq_some'] at h
                obtain ⟨o', ho', rfl⟩ := h
                have hcard := uCard_lt_of_unvisited hget hmr hvis
                obtain ⟨v, hv⟩ := ih _ _ _ _ _ ho' b₀ (by omega)
                -- unfold the simulated state: child expansion then frame
                simp only [dfsResume] at hv
                cases hin : dfsNames lexer b₀ cs
                    (insert name onpath) (insert name visited) with
                | none => rw [hin] at hv; simp at hv
                | some o1 =>
                  rw [hin] at hv
                  obtain ⟨ys1, v1, tm1⟩ := o1
                  cases tm1 with
                  | some e =>
                    injection hv with hv'
                    rw [DfsOut.mk.injEq] at hv'
                    refine ⟨v1, ?_⟩
                    dsimp only
                    rw [← hv'.1, ← hv'.2.2]
                    exact dfsResume_of_err
                      (by rw [dfsNames_cons_push hget hmr hop hvis, hin])
                  | none =>
                    try dsimp only at hv
                    rw [Option.map_eq_some'] at hv
                    obtain ⟨o2, ho2, heq⟩ := hv
                    rw [DfsOut.mk.injEq] at heq
                    rw [Finset.erase_insert hop] at ho2
                    have ho2' := dfsResume_mono (Nat.le_succ b₀) _ _ _ _ _ ho2
                    refine ⟨v, ?_⟩
                    rw [dfsResume_push_ok hget hmr hop hvis hin, ho2']
                    dsimp only [Option.map_some']
                    rw [heq.1, heq.2.1, heq.2.2]


/-- C1: For every token table in which every referenced name resolves and
every leaf declares an `after` target, the resolver's decision sequence from
a given start symbol is deterministic (it is the value of the function
`iterTokens`, so two runs agree) and equals the left-to-right, depth-first
flattening of the composite graph (`dfsFlatten`, written from the spec),
yielding exactly the leaf tokens, in the order the depth-first expansion
visits them, with the same terminal outcome.  (The equality in fact holds
with no hypotheses on the table.) -/
theorem iterTokens_eq_dfsFlatten (lexer : Lexer) (start : String)
    (hres : (lexer.get start).isSome ∧
      ∀ p ∈ lexer.table, ∀ cs, p.2.matchRule = some (.names cs) →
        ∀ c ∈ cs, (lexer.get c).isSome)
    (hafter : ∀ p ∈ lexer.table, ∀ m, p.2.matchRule = some (.matcher m) →
      p.2.after.isSome) :
    ∃ v, dfsFlatten lexer start =
      some ⟨(iterTokens lexer start).yields, v, (iterTokens lexer start).term⟩ := by
  have hiter : iterLoop lexer lexer.iterFuel [start] [] ∅ ∅ =
      some (iterTokens lexer start) := (Option.some_get _).symm
  have hb : lexer.uCard ∅ < lexer.dfsBudget := by
    unfold Lexer.uCard Lexer.dfsBudget
    rw [Finset.sdiff_empty]
    omega
  obtain ⟨v, hv⟩ := iterLoop_sim lexer _ _ _ _ _ _ hiter _ hb
  exact ⟨v, hv⟩

/-- One-leaf table used to instantiate the C1 theorem. -/
def lexC1 : Lexer :=
  { begin := "begin"
    table := [("begin",
      { matchRule := some (.matcher (msMk "x".toList false))
        after := some (.static "begin")
        on_match := none
        on_fail := none })] }

theorem iterTokens_eq_dfsFlatten_inst :
    ∃ v, dfsFlatten lexC1 "begin" =
      some ⟨(iterTokens lexC1 "begin").yields, v, (iterTokens lexC1 "begin").term⟩ :=
  iterTokens_eq_dfsFlatten lexC1 "begin"
    ⟨by decide, by
      intro p hp cs hcs c hc
      simp only [lexC1, List.mem_singleton] at hp
      subst hp
      simp [msMk] at hcs⟩
    (by
      intro p hp m hm
      simp only [lexC1, List.mem_singleton] at hp
      subst hp
      rfl)

/-! ### The Parser object -/

/-- One backtrack frame: the tuple
`(next_lineidx, current_lineno, current_pos, current_line)` that
`cache_push` appends to `idx_stack`. -/
structure Snapshot where
  next_lineidx : Nat
  current_lineno : Nat
  current_pos : Nat
  current_line : List Char
  deriving DecidableEq

/-- Observable events of a parser run: hook invocations (tags recorded
by caller-supplied hooks) and successful leaf matches as reported by
`Parser.token_match` (the observability hook). -/
inductive Event where
  | hook (tag : String)
  | matched (name : String) (value : MatchVal)
  deriving DecidableEq, Repr

/-- The not-yet-consumed part of `self.current_iter`: `rem` are the
pending yields; `term` surfaces after them (`none`: the generator just
stops, `some e`: the next pull raises `e`). -/
structure IterState where
  rem : List Yield
  term : Option LexerError

/-- Build `current_iter` for a start symbol (`iter_tokens`, run eagerly;
the pending yields and terminal outcome are consumed lazily by the
driver exactly as the generator would produce them). -/
def mkIterState (lexer : Lexer) (name : String) : IterState :=
  { rem := (iterTokens lexer name).yields, term := (iterTokens lexer name).term }

/-- The mutable state of a `Parser` instance.  The `current_readline`
callable is externalised as an explicit argument of `runParser` (the
list of its successive return values), so it is not a field here.
`events` is the observation log (`token_match` and hook calls).
`bad_token_handler` -- Modelled from the spec: the spec's declared
unmatched-token handler (`_on_bad_token`), which the source realises by
overriding the `on_bad_token` method; `none` is the base-class
behaviour (raise `E_NO_MATCH`). -/
structure Parser where
  lexer : Lexer
  eol_newline : Bool
  line_cache : List (List Char)
  idx_stack : List Snapshot
  next_lineidx : Nat
  current_iter : IterState
  current_line : List Char
  current_lineno : Nat
  current_pos : Nat
  events : List Event
  bad_token_handler : Option HookAction

/-- `Parser.reset_iter(lookup)`. -/
def Parser.reset_iter (p : Parser) (lookup : String) : Parser :=
  { p with current_iter := mkIterState p.lexer lookup }

/-- `Parser.__init__(lexer, eol_newline=False)` (which ends with
`reset_iter(lexer['_begin'])`). -/
def Parser.init (lexer : Lexer) (eol_newline : Bool) : Parser :=
  { lexer := lexer
    eol_newline := eol_newline
    line_cache := []
    idx_stack := []
    next_lineidx := 0
    current_iter := mkIterState lexer lexer.begin
    current_line := []
    current_lineno := 0
    current_pos := 0
    events := []
    bad_token_handler := none }

/-- `Parser.cache_push`: snapshot the read position.  (Python appends
at the end of `idx_stack` and pops from the end; here the head of the
list is the top of the stack.) -/
def Parser.cache_push (p : Parser) : Parser :=
  { p with idx_stack :=
      ⟨p.next_lineidx, p.current_lineno, p.current_pos, p.current_line⟩ ::
        p.idx_stack }

/-- `Parser.cache_pop`: restore the most recent snapshot and drop it;
a silent no-op when the stack is empty (`if self.idx_stack:`). -/
def Parser.cache_pop (p : Parser) : Parser :=
  match p.idx_stack with
  | [] => p
  | s :: tail =>
    { p with next_lineidx := s.next_lineidx
             current_lineno := s.current_lineno
             current_pos := s.current_pos
             current_line := s.current_line
             idx_stack := tail }

/-- `Parser.cache_discard`: drop the most recent snapshot without
restoring; a silent no-op when the stack is empty. -/
def Parser.cache_discard (p : Parser) : Parser :=
  match p.idx_stack with
  | [] => p
  | _ :: tail => { p with idx_stack := tail }

/-- `Parser.cache_purge`: clear the snapshot stack and trim the
already-consumed lines from the cache. -/
def Parser.cache_purge (p : Parser) : Parser :=
  let p := if p.idx_stack.isEmpty then p else { p with idx_stack := [] }
  if p.line_cache.isEmpty then p
  else { p with line_cache := p.line_cache.drop p.next_lineidx
                next_lineidx := 0 }

/-- `str.splitlines`, for `'\n'`-separated text (the accumulator holds
the current line reversed). -/
def splitlinesAux : List Char → List Char → List (List Char)
  | [], acc => if acc.isEmpty then [] else [acc.reverse]
  | c :: rest, acc =>
    if c = '\n' then acc.reverse :: splitlinesAux rest []
    else splitlinesAux rest (c :: acc)

/-- `line.splitlines()`. -/
def splitlines (l : List Char) : List (List Char) :=
  splitlinesAux l []

/-- The `splitted` lines of one raw block from the readline source,
with the newline re-appended when `eol_newline` is set. -/
def splitBlock (eol : Bool) (b : List Char) : List (List Char) :=
  let s := splitlines b
  if eol then s.map (fun l => l ++ ['\n']) else s

/-- Extend the line cache with one nonempty block returned by the
readline source (`self.line_cache.extend(splitted)`); also the
push-mode line feed. -/
def Parser.feedBlock (p : Parser) (b : List Char) : Parser :=
  { p with line_cache := p.line_cache ++ splitBlock p.eol_newline b }

/-- Second half of `Parser.readline`: take the next cached line, if
any, advancing `next_lineidx`, `current_lineno`, `current_pos` and
`current_line`; otherwise return the empty (falsy) line. -/
def Parser.cacheAdvance (p : Parser) : List Char × Parser :=
  if h : p.next_lineidx < p.line_cache.length then
    let line := p.line_cache.get ⟨p.next_lineidx, h⟩
    (line, { p with next_lineidx := p.next_lineidx + 1
                    current_lineno := p.current_lineno + 1
                    current_pos := 0
                    current_line := line })
  else ([], p)

/-- `Parser.readline`, with the `current_readline` source externalised
as the list of blocks it will successively return.  An empty source
models `current_readline` being `None` (or about to return a falsy
line); an empty block closes the source, dropping the rest. -/
def Parser.readline (p : Parser) (source : List (List Char)) :
    List Char × List (List Char) × Parser :=
  let (source, p) :=
    if p.line_cache.length ≤ p.next_lineidx then
      match source with
      | [] => ([], p)
      | b :: rest => if b.isEmpty then ([], p) else (rest, p.feedBlock b)
    else (source, p)
  let (line, p) := p.cacheAdvance
  (line, source, p)

mutual

/-- `Matcher.match(parser, line, pos)` for the built-in matchers.
`MS.match` compares the slice `line[pos:pos+len(string)]` (lower-cased
when `icase`) with the stored string; `MRE.match` applies the compiled
regex's anchored match at `pos` (the match object is modelled by the
matched slice); `MM.match` is `mmLoop`. -/
def Matcher.match : Matcher → Parser → List Char → Nat →
    Option (Nat × MatchVal) × Parser
  | .ms s icase, p, line, pos =>
    let tmp := (line.drop pos).take s.length
    let tmp := if icase then tmp.map Char.toLower else tmp
    (if tmp = s then some (pos + s.length, s) else none, p)
  | .mre f, p, line, pos =>
    match f line pos with
    | some len => (some (pos + len, (line.drop pos).take len), p)
    | none => (none, p)
  | .mm args, p, line, pos => mmLoop args p line pos

/-- The loop of `MM.match`: for each member, `cache_push`, try the
member, and return its result directly on success (the pushed snapshot
is not discarded); on failure `cache_pop` and try the next member. -/
def mmLoop : List Matcher → Parser → List Char → Nat →
    Option (Nat × MatchVal) × Parser
  | [], p, _, _ => (none, p)
  | m :: rest, p, line, pos =>
    let p := p.cache_push
    match m.match p line pos with
    | (some res, p) => (some res, p)
    | (none, p) => mmLoop rest p.cache_pop line pos

end

/-! ### The driver loop -/

/-- Errors a run can surface: a `LexerError` raised by the engine, an
exception raised by a caller-supplied hook (never caught by the
engine), or the `KeyError` Python would raise if a yielded token lacked
its `match`/`after` key (unreachable: `iter_tokens` only yields leaf
tokens that have both).  Errors carry the parser state at raise time so
that the theorems can speak about the state when an exception
propagates. -/
inductive RunError where
  | lexer (e : LexerError)
  | hookRaise (tag : String)
  | keyErr (key : String)
  deriving DecidableEq, Repr

/-- Run a caller-supplied hook on the parser. -/
def applyHook (h : HookAction) (p : Parser) : Except (RunError × Parser) Parser :=
  match h with
  | .record tag => .ok { p with events := p.events ++ [.hook tag] }
  | .raiseAbort tag => .error (.hookRaise tag, p)

/-- `Parser.on_bad_token`: with no declared handler, raise
`E_NO_MATCH(lineno=self.current_lineno, pos=self.current_pos+1)`; with
a declared handler (the spec's `_on_bad_token` / a subclass override),
run it instead. -/
def Parser.on_bad_token (p : Parser) : Except (RunError × Parser) Parser :=
  match p.bad_token_handler with
  | none => .error (.lexer (.e_no_match p.current_lineno (p.current_pos + 1)), p)
  | some h => applyHook h p

/-- `Parser.token_match(token, match)`: the observability hook invoked
on every successful leaf match; records the token name and value. -/
def Parser.token_match (p : Parser) (token : String) (value : MatchVal) : Parser :=
  { p with events := p.events ++ [.matched token value] }

/-- The read position exposed to a callable `after`. -/
def Parser.snap (p : Parser) : Nat × Nat × Nat × List Char :=
  (p.next_lineidx, p.current_lineno, p.current_pos, p.current_line)

/-- Result of one iteration of the `run_parser` loop body once a line
is available: continue looping, or halt with the run's outcome. -/
inductive StepRes where
  | cont (p : Parser)
  | halt (r : Except (RunError × Parser) Parser)

/-- One iteration of the `while True` body of `Parser.run_parser` after
step 1 (line acquisition): pull the next candidate from `current_iter`
(exhaustion invokes `on_bad_token` and then breaks; a pending expansion
error is raised), try its matcher under a `cache_push` snapshot; on
failure `cache_pop` and fire `on_fail`; on success fire
`token_match`/`on_match`, resolve `after`, advance `current_pos`,
re-arm the resolver (`reset_iter`) and `cache_purge`. -/
def parserStep (p : Parser) : StepRes :=
  match p.current_iter.rem with
  | [] =>
    match p.current_iter.term with
    | some e => .halt (.error (.lexer e, p))
    | none =>
      match p.on_bad_token with
      | .error ep => .halt (.error ep)
      | .ok p' => .halt (.ok p')
  | (name, token) :: rest =>
    let p := { p with current_iter := { p.current_iter with rem := rest } }
    match token.matchRule, token.after with
    | some (.matcher matcher), some after =>
      let p := p.cache_push
      match matcher.match p p.current_line p.current_pos with
      | (none, p) =>
        let p := p.cache_pop
        match token.on_fail with
        | some h =>
          match applyHook h p with
          | .error ep => .halt (.error ep)
          | .ok p => .cont p
        | none => .cont p
      | (some (new_pos, value), p) =>
        let p := p.token_match name value
        let hooked := match token.on_match with
          | some h => applyHook h p
          | none => .ok p
        match hooked with
        | .error ep => .halt (.error ep)
        | .ok p =>
          let afterName := match after with
            | .static s => s
            | .dyn f => f p.snap
          let p := { p with current_pos := new_pos }
          let p := p.reset_iter afterName
          let p := p.cache_purge
          .cont p
    | _, _ => .halt (.error (.keyErr "match", p))

/-- `Parser.run_parser`, fuel-indexed (the source's loop can genuinely
diverge, e.g. on a zero-length match whose `after` state loops): one
unit of fuel per loop iteration, `none` = fuel exhausted.  `source` is
the externalised `current_readline`. -/
def runParser : Nat → List (List Char) → Parser →
    Option (Except (RunError × Parser) Parser)
  | 0, _, _ => none
  | fuel+1, source, p =>
    if p.current_line.length ≤ p.current_pos then
      match p.readline source with
      | (line, source, p) =>
        if line.isEmpty then some (.ok p)
        else
          match parserStep p with
          | .halt r => some r
          | .cont p' => runParser fuel source p'
    else
      match parserStep p with
      | .halt r => some r
      | .cont p' => runParser fuel source p'

/-- `Parser.parse_readline(readline)`: pull mode, the source given as
the list of the readline function's successive return values. -/
def parse_readline (p : Parser) (fuel : Nat) (source : List (List Char)) :
    Option (Except (RunError × Parser) Parser) :=
  runParser fuel source p

/-- `Parser.parse_lines(lines)`: the iterating readline returns the
elements of `lines` in turn and then the falsy `''`. -/
def parse_lines (p : Parser) (fuel : Nat) (lines : List (List Char)) :
    Option (Except (RunError × Parser) Parser) :=
  parse_readline p fuel lines

/-- Modelled from the spec: the suspension result of the push-mode
driver (§4.4(b); the push/incremental delivery mode is not part of this
source file).  `needLine` returns control to the caller, with the fuel
still available, to be resumed by feeding one line or finalising. -/
inductive PushRes where
  | needLine (p : Parser) (fuel : Nat)
  | finished (r : Except (RunError × Parser) Parser)

/-- Modelled from the spec: the resumable push-mode driver (§9
"generator-based suspension ... reimplement as an explicit resumable
state object"): the same loop as `runParser` with no pull source;
when the current line is consumed and the cache holds no further line
it suspends instead of reading. -/
def runPush : Nat → Parser → Option PushRes
  | 0, _ => none
  | fuel+1, p =>
    if p.current_line.length ≤ p.current_pos then
      if p.next_lineidx < p.line_cache.length then
        match p.cacheAdvance with
        | (line, p) =>
          if line.isEmpty then some (.finished (.ok p))
          else
            match parserStep p with
            | .halt r => some (.finished r)
            | .cont p' => runPush fuel p'
      else some (.needLine p (fuel+1))
    else
      match parserStep p with
      | .halt r => some (.finished r)
      | .cont p' => runPush fuel p'

/-- Modelled from the spec: drive the push-mode parser by feeding the
given blocks one at a time at each suspension, finalising when they run
out or at an empty block (matching the pull source's closing
behaviour). -/
def pushDrive : List (List Char) → Nat → Parser →
    Option (Except (RunError × Parser) Parser)
  | [], fuel, p =>
    match runPush fuel p with
    | none => none
    | some (.finished r) => some r
    | some (.needLine p' _) => some (.ok p')
  | b :: rest, fuel, p =>
    match runPush fuel p with
    | none => none
    | some (.finished r) => some r
    | some (.needLine p' f') =>
      if b.isEmpty then some (.ok p') else pushDrive rest f' (p'.feedBlock b)

/-- The events of a run outcome (also of one that raised). -/
def runEvents : Option (Except (RunError × Parser) Parser) → Option (List Event)
  | some (.ok p) => some p.events
  | some (.error (_, p)) => some p.events
  | none => none

/-- The error of a run outcome (`some none`: finished cleanly). -/
def runError : Option (Except (RunError × Parser) Parser) → Option (Option RunError)
  | some (.ok _) => some none
  | some (.error (e, _)) => some (some e)
  | none => none

/-- The matched `(name, value)` pairs of an event log, in order. -/
def matchedOf (events : List Event) : List (String × MatchVal) :=
  events.filterMap (fun ev => match ev with
    | .matched n v => some (n, v)
    | .hook _ => none)

/-! ### Backtrack buffer properties -/

theorem cache_pop_push (p : Parser) : p.cache_push.cache_pop = p := rfl

theorem cache_popN_pushN (n : Nat) (p : Parser) :
    (Parser.cache_pop)^[n] ((Parser.cache_push)^[n] p) = p := by
  induction n with
  | zero => rfl
  | succ n ih =>
    rw [Function.iterate_succ_apply' Parser.cache_push n p,
      Function.iterate_succ_apply Parser.cache_pop n]
    rw [cache_pop_push]
    exact ih

/-- C7: For every parser state and every `N`, performing `N` backtrack
push operations followed by `N` pop operations restores the read
position -- next line index, line number, column position and current
line text -- exactly to its values before the first push (in fact the
whole parser state is restored). -/
theorem cache_push_pop_roundtrip (p : Parser) (n : Nat) :
    ((Parser.cache_pop)^[n] ((Parser.cache_push)^[n] p)).next_lineidx = p.next_lineidx ∧
    ((Parser.cache_pop)^[n] ((Parser.cache_push)^[n] p)).current_lineno = p.current_lineno ∧
    ((Parser.cache_pop)^[n] ((Parser.cache_push)^[n] p)).current_pos = p.current_pos ∧
    ((Parser.cache_pop)^[n] ((Parser.cache_push)^[n] p)).current_line = p.current_line := by
  rw [cache_popN_pushN]
  exact ⟨rfl, rfl, rfl, rfl⟩

/-- C10: Calling `cache_pop` or `cache_discard` on an empty snapshot
stack raises no error and leaves the parser (every field: next line
index, line number, column, current line text, line cache, ...)
unchanged: an unbalanced pop or discard is a silent no-op. -/
theorem cache_pop_discard_empty_noop (p : Parser) (h : p.idx_stack = []) :
    p.cache_pop = p ∧ p.cache_discard = p := by
  unfold Parser.cache_pop Parser.cache_discard
  rw [h]
  exact ⟨rfl, rfl⟩

theorem cache_pop_discard_empty_noop_witness :
    (Parser.init ⟨"begin", []⟩ false).cache_pop = Parser.init ⟨"begin", []⟩ false ∧
    (Parser.init ⟨"begin", []⟩ false).cache_discard = Parser.init ⟨"begin", []⟩ false :=
  cache_pop_discard_empty_noop (Parser.init ⟨"begin", []⟩ false) rfl

mutual

/-- A built-in matcher can change the parser state only by leaving
extra `cache_push` snapshots on top of it; a failed attempt leaves the
state exactly as it was. -/
theorem matcher_match_state (m : Matcher) : ∀ (p : Parser) (line : List Char) (pos : Nat),
    ∃ k, (m.match p line pos).2 = (Parser.cache_push)^[k] p ∧
      ((m.match p line pos).1 = none → k = 0) :=
  match m with
  | .ms s icase => fun p line pos => ⟨0, rfl, fun _ => rfl⟩
  | .mre f => fun p line pos => by
      refine ⟨0, ?_, fun _ => rfl⟩
      unfold Matcher.match
      cases f line pos <;> rfl
  | .mm args => fun p line pos => by
      obtain ⟨k, h1, h2, _⟩ := mmLoop_state args p line pos
      exact ⟨k, h1, h2⟩

/-- `mmLoop` state discipline: a failed alternation restores the state
exactly; a successful one leaves at least one snapshot (the one pushed
for the winning member is never discarded). -/
theorem mmLoop_state (args : List Matcher) : ∀ (p : Parser) (line : List Char) (pos : Nat),
    ∃ k, (mmLoop args p line pos).2 = (Parser.cache_push)^[k] p ∧
      ((mmLoop args p line pos).1 = none → k = 0) ∧
      ((mmLoop args p line pos).1.isSome → 1 ≤ k) :=
  match args with
  | [] => fun p line pos => ⟨0, rfl, fun _ => rfl, by simp [mmLoop]⟩
  | m :: rest => fun p line pos => by
      obtain ⟨k1, h1, h2⟩ := matcher_match_state m p.cache_push line pos
      simp only [mmLoop]
      cases hm : m.match p.cache_push line pos with
      | mk r p2 =>
        rw [hm] at h1 h2
        cases r with
        | some res =>
          refine ⟨k1 + 1, ?_, by simp, by intro _; omega⟩
          rw [Function.iterate_succ_apply]
          exact h1
        | none =>
          have hk1 : k1 = 0 := h2 rfl
          subst hk1
          have hp2 : p2 = p.cache_push := h1
          have hpop : p2.cache_pop = p := by rw [hp2]; exact cache_pop_push p
          dsimp only
          rw [hpop]
          exact mmLoop_state rest p line pos

end

theorem cache_push_iterate_fields (k : Nat) (p : Parser) :
    ((Parser.cache_push)^[k] p).current_pos = p.current_pos ∧
    ((Parser.cache_push)^[k] p).current_line = p.current_line ∧
    ((Parser.cache_push)^[k] p).next_lineidx = p.next_lineidx ∧
    ((Parser.cache_push)^[k] p).current_lineno = p.current_lineno ∧
    ((Parser.cache_push)^[k] p).idx_stack.length = p.idx_stack.length + k := by
  induction k with
  | zero => exact ⟨rfl, rfl, rfl, rfl, rfl⟩
  | succ k ih =>
    rw [Function.iterate_succ_apply' Parser.cache_push k p]
    refine ⟨ih.1, ih.2.1, ih.2.2.1, ih.2.2.2.1, ?_⟩
    show ((Parser.cache_push)^[k] p).idx_stack.length + 1 = p.idx_stack.length + (k + 1)
    have := ih.2.2.2.2
    omega

/-- A parser state with an empty backtrack stack, for the C3 evidence. -/
def pC3 : Parser := Parser.init ⟨"begin", []⟩ false

/-- C3 counterexample: the claim that the alternation discards its
snapshot when a member succeeds, leaving the stack exactly as deep as
before the call, is false on the code: at a state with an empty stack,
`MM(MS("a")).match` on `"a"` at position 0 succeeds but returns with
the snapshot still on the stack (depth 1, not 0) -- `MM.match` returns
the member's result directly without `cache_discard`. -/
theorem mm_snapshot_kept_on_success_cex :
    ((Matcher.mm [msMk "a".toList false]).match pC3 "a".toList 0).1 =
      some (1, "a".toList) ∧
    pC3.idx_stack.length = 0 ∧
    ((Matcher.mm [msMk "a".toList false]).match pC3 "a".toList 0).2.idx_stack.length = 1 :=
  ⟨rfl, rfl, rfl⟩

/-- C3 (amended): for every alternation matcher, every parser state and
every input position, the alternation snapshots the backtrack buffer
before attempting each member and restores (pops) the snapshot when
that member fails, so a failed member leaves the read position
unchanged for the next member, and an alternation that fails overall
returns the parser state exactly as before the call; on success,
however, the snapshot is not discarded: the alternation returns with
the read-position fields unchanged but the snapshot stack at least one
frame deeper than before the call (the driver's `cache_purge` clears it
after the containing state commits). -/
theorem mm_match_backtracking (args : List Matcher) (p : Parser)
    (line : List Char) (pos : Nat) :
    (((Matcher.mm args).match p line pos).1 = none →
      ((Matcher.mm args).match p line pos).2 = p) ∧
    (((Matcher.mm args).match p line pos).1.isSome →
      ((Matcher.mm args).match p line pos).2.current_pos = p.current_pos ∧
      ((Matcher.mm args).match p line pos).2.current_line = p.current_line ∧
      ((Matcher.mm args).match p line pos).2.next_lineidx = p.next_lineidx ∧
      ((Matcher.mm args).match p line pos).2.current_lineno = p.current_lineno ∧
      p.idx_stack.length + 1 ≤ ((Matcher.mm args).match p line pos).2.idx_stack.length) := by
  obtain ⟨k, h1, h2, h3⟩ := mmLoop_state args p line pos
  have hmm : (Matcher.mm args).match p line pos = mmLoop args p line pos := rfl
  rw [hmm]
  constructor
  · intro hn
    have hk := h2 hn
    rw [h1, hk]
    rfl
  · intro hs
    have hk := h3 hs
    have hf := cache_push_iterate_fields k p
    rw [h1]
    refine ⟨hf.1, hf.2.1, hf.2.2.1, hf.2.2.2.1, ?_⟩
    have := hf.2.2.2.2
    omega

theorem mm_match_backtracking_witness :
    ((Matcher.mm [msMk "b".toList false]).match pC3 "a".toList 0).1 = none ∧
    ((Matcher.mm [msMk "b".toList false]).match pC3 "a".toList 0).2 = pC3 :=
  ⟨rfl, (mm_match_backtracking [msMk "b".toList false] pC3 "a".toList 0).1 rfl⟩

/-! ### Eagerness and redundancy properties of the resolver -/

/-- C5: `TokenNotFound` (a referenced name absent from the table),
`MissingMatcher` (a token record lacking a match rule) and
`MissingTransition` (a leaf token lacking an `after` target) are each
raised as soon as the offending node is reached during graph expansion
(the expansion trace ends right there, yielding and visiting nothing
further); and the driver surfaces a pending expansion error with the
parser state completely untouched -- no backtrack snapshot is pushed,
no matcher is invoked, and the raised error carries the parser exactly
as it was, so no cursor movement and no input consumption has happened
for that match attempt. -/
theorem expansion_errors_eager (lexer : Lexer) :
    (∀ (fuel : Nat) name rest stack onpath visited, lexer.get name = none →
      iterLoop lexer (fuel+1) (name::rest) stack onpath visited =
        some ⟨[], [], some (.e_token_not_found name)⟩) ∧
    (∀ (fuel : Nat) name rest stack onpath visited t, lexer.get name = some t →
      t.matchRule = none →
      iterLoop lexer (fuel+1) (name::rest) stack onpath visited =
        some ⟨[], [], some (.e_missing_match name)⟩) ∧
    (∀ (fuel : Nat) name rest stack onpath visited t m, lexer.get name = some t →
      t.matchRule = some (.matcher m) → t.after = none →
      iterLoop lexer (fuel+1) (name::rest) stack onpath visited =
        some ⟨[], [], some (.e_missing_after name)⟩) ∧
    (∀ (p : Parser) (e : LexerError), p.current_iter.rem = [] →
      p.current_iter.term = some e →
      parserStep p = .halt (.error (.lexer e, p))) := by
  refine ⟨?_, ?_, ?_, ?_⟩
  · intro fuel name rest stack onpath visited hget
    simp [iterLoop, hget]
  · intro fuel name rest stack onpath visited t hget hmr
    simp [iterLoop, hget, hmr]
  · intro fuel name rest stack onpath visited t m hget hmr hafter
    simp [iterLoop, hget, hmr, hafter]
  · intro p e hrem hterm
    unfold parserStep
    rw [hrem, hterm]

/-- One-entry tables for the C5 instances: a table with a token lacking
`match` and a leaf lacking `after`, driven from an unresolvable start. -/
def lexC5 : Lexer :=
  { begin := "begin"
    table := [
      ("nomatch", { matchRule := none, after := none,
                    on_match := none, on_fail := none }),
      ("noafter", { matchRule := some (.matcher (msMk "x".toList false)),
                    after := none, on_match := none, on_fail := none })] }

theorem expansion_errors_eager_witness :
    iterLoop lexC5 1 ["begin"] [] ∅ ∅ =
      some ⟨[], [], some (.e_token_not_found "begin")⟩ ∧
    iterLoop lexC5 1 ["nomatch"] [] ∅ ∅ =
      some ⟨[], [], some (.e_missing_match "nomatch")⟩ ∧
    iterLoop lexC5 1 ["noafter"] [] ∅ ∅ =
      some ⟨[], [], some (.e_missing_after "noafter")⟩ ∧
    parserStep (Parser.init lexC5 false) =
      .halt (.error (.lexer (.e_token_not_found "begin"), Parser.init lexC5 false)) :=
  ⟨(expansion_errors_eager lexC5).1 0 "begin" [] [] ∅ ∅ rfl,
   (expansion_errors_eager lexC5).2.1 0 "nomatch" [] [] ∅ ∅ _ rfl rfl,
   (expansion_errors_eager lexC5).2.2.1 0 "noafter" [] [] ∅ ∅ _ _ rfl rfl rfl,
   (expansion_errors_eager lexC5).2.2.2 (Parser.init lexC5 false) _ rfl rfl⟩

/-- The loop/visited example table of the test suite
(`test_e_loop_and_visits`), for C6. -/
def lexC6 : Lexer :=
  { begin := "begin"
    table := [
      ("begin", { matchRule := some (.names ["a", "b"]), after := none,
                  on_match := none, on_fail := none }),
      ("a", { matchRule := some (.names ["a1", "a2"]), after := none,
              on_match := none, on_fail := none }),
      ("a1", { matchRule := some (.matcher (msMk "Y".toList false)),
               after := some (.static "foo"), on_match := none, on_fail := none }),
      ("a2", { matchRule := some (.matcher (msMk "Z".toList false)),
               after := some (.static "bar"), on_match := none, on_fail := none }),
      ("b", { matchRule := some (.names ["a", "b1"]), after := none,
              on_match := none, on_fail := none }),
      ("b1", { matchRule := some (.names ["a", "b"]), after := none,
               on_match := none, on_fail := none })] }

theorem iterLoop_pushes_nodup (lexer : Lexer) :
    ∀ fuel cur stack onpath visited o,
      iterLoop lexer fuel cur stack onpath visited = some o →
      o.pushes.Nodup ∧ ∀ x ∈ o.pushes, x ∉ visited := by
  intro fuel
  induction fuel with
  | zero => intro _ _ _ _ o h; simp [iterLoop] at h
  | succ fuel ih =>
    intro cur stack onpath visited o h
    cases cur with
    | nil =>
      cases stack with
      | nil =>
        simp only [iterLoop] at h
        obtain rfl : o = ⟨[], [], none⟩ := by injection h with h'; exact h'.symm
        exact ⟨List.nodup_nil, by simp⟩
      | cons fr stack' =>
        obtain ⟨n, it⟩ := fr
        simp only [iterLoop] at h
        exact ih _ _ _ _ _ h
    | cons name rest =>
      simp only [iterLoop] at h
      cases hget : lexer.get name with
      | none =>
        rw [hget] at h
        obtain rfl : o = ⟨[], [], some (.e_token_not_found name)⟩ := by
          injection h with h'; exact h'.symm
        exact ⟨List.nodup_nil, by simp⟩
      | some token =>
        rw [hget] at h
        try dsimp only at h
        cases hmr : token.matchRule with
        | none =>
          rw [hmr] at h
          obtain rfl : o = ⟨[], [], some (.e_missing_match name)⟩ := by
            injection h with h'; exact h'.symm
          exact ⟨List.nodup_nil, by simp⟩
        | some mr =>
          rw [hmr] at h
          try dsimp only at h
          cases mr with
          | matcher m =>
            cases hafter : token.after with
            | none =>
              rw [hafter] at h
              obtain rfl : o = ⟨[], [], some (.e_missing_after name)⟩ := by
                injection h with h'; exact h'.symm
              exact ⟨List.nodup_nil, by simp⟩
            | some a =>
              rw [hafter] at h
              try dsimp only at h
              rw [Option.map_eq_some'] at h
              obtain ⟨o', ho', rfl⟩ := h
              exact ih rest stack onpath visited o' ho'
          | names cs =>
            try dsimp only at h
            by_cases hop : name ∈ onpath
            · rw [if_pos hop] at h
              obtain rfl : o = ⟨[], [], some (.e_loop name)⟩ := by
                injection h with h'; exact h'.symm
              exact ⟨List.nodup_nil, by simp⟩
            · rw [if_neg hop] at h
              by_cases hvis : name ∈ visited
              · rw [if_pos hvis] at h
                exact ih _ _ _ _ _ h
              · rw [if_neg hvis] at h
                rw [Option.map_eq_some'] at h
                obtain ⟨o', ho', rfl⟩ := h
                obtain ⟨hnd, hnv⟩ := ih _ _ _ _ _ ho'
                constructor
                · exact List.Nodup.cons
                    (fun hmem => hnv name hmem (Finset.mem_insert_self _ _)) hnd
                · intro x hx
                  rcases List.mem_cons.mp hx with rfl | hx'
                  · exact hvis
                  · exact fun hxv => hnv x hx' (Finset.mem_insert_of_mem hxv)

/-- C6: A composite reached a second time during the same
start-symbol expansion, when it is not on the current path, is skipped
silently -- no error, no yield, no iteration of its children (the loop
simply moves on to the next sibling) -- so every composite's child list
is iterated from the underlying source at most once per expansion: the
recorded iteration events are duplicate-free; in the test suite's
example graph, `a` is reachable both from `begin` and from `b` but its
children are iterated exactly once. -/
theorem composite_expanded_at_most_once (lexer : Lexer) :
    (∀ (fuel : Nat) name t cs rest stack onpath visited,
      lexer.get name = some t → t.matchRule = some (.names cs) →
      name ∉ onpath → name ∈ visited →
      iterLoop lexer (fuel+1) (name::rest) stack onpath visited =
        iterLoop lexer fuel rest stack onpath visited) ∧
    (∀ fuel cur stack onpath visited o,
      iterLoop lexer fuel cur stack onpath visited = some o →
      o.pushes.Nodup) ∧
    (iterTokens lexC6 "begin").pushes = ["begin", "a", "b", "b1"] := by
  refine ⟨?_, ?_, by decide⟩
  · intro fuel name t cs rest stack onpath visited hget hmr hop hv
    simp [iterLoop, hget, hmr, if_neg hop, if_pos hv]
  · intro fuel cur stack onpath visited o h
    exact (iterLoop_pushes_nodup lexer fuel cur stack onpath visited o h).1

theorem composite_expanded_at_most_once_witness :
    iterLoop lexC6 1 ["a"] [] ∅ {"a"} = iterLoop lexC6 0 [] [] ∅ {"a"} ∧
    (iterTokens lexC6 "begin").pushes.Nodup :=
  ⟨(composite_expanded_at_most_once lexC6).1 0 "a" _ ["a1", "a2"] [] [] ∅ {"a"}
      rfl rfl (by simp) (by simp),
   (composite_expanded_at_most_once lexC6).2.1 lexC6.iterFuel ["begin"] [] ∅ ∅
      (iterTokens lexC6 "begin") (Option.some_get _).symm⟩

/-- The loop example graph of the spec and the test suite
(`begin→{a,b}`, `a→{a1,a2}`, `b→{a,b1}`, `b1→{a,b}`, leaves matching
`"Y"`/`"Z"` so nothing matches `"X"`), for C2. -/
def lexC2 : Lexer :=
  { begin := "begin"
    table := [
      ("begin", { matchRule := some (.names ["a", "b"]), after := none,
                  on_match := none, on_fail := none }),
      ("a", { matchRule := some (.names ["a1", "a2"]), after := none,
              on_match := none, on_fail := none }),
      ("a1", { matchRule := some (.matcher (msMk "Y".toList false)),
               after := some (.static "foo"), on_match := none, on_fail := none }),
      ("a2", { matchRule := some (.matcher (msMk "Z".toList false)),
               after := some (.static "bar"), on_match := none, on_fail := none }),
      ("b", { matchRule := some (.names ["a", "b1"]), after := none,
              on_match := none, on_fail := none }),
      ("b1", { matchRule := some (.names ["a", "b"]), after := none,
               on_match := none, on_fail := none })] }

/-- C2: When a composite token is re-entered while it is still on the
current expansion path, expansion raises `LoopDetected` (`E_LOOP`)
carrying the name of the composite actually re-entered -- the innermost
node being processed, never an ancestor; and in the example graph
`begin→{a,b}`, `a→{a1,a2}`, `b→{a,b1}`, `b1→{a,b}` with no leaf
matching the input `"X"`, the whole parse raises `E_LOOP` naming `b`,
not `a` or `b1`. -/
theorem loop_detected_names_reentered (lexer : Lexer) :
    (∀ (fuel : Nat) name t cs rest stack onpath visited,
      lexer.get name = some t → t.matchRule = some (.names cs) →
      name ∈ onpath →
      iterLoop lexer (fuel+1) (name::rest) stack onpath visited =
        some ⟨[], [], some (.e_loop name)⟩) ∧
    runError (parse_lines (Parser.init lexC2 false) 10 ["X".toList]) =
      some (some (.lexer (.e_loop "b"))) ∧
    LexerError.e_loop "b" ≠ .e_loop "a" ∧ LexerError.e_loop "b" ≠ .e_loop "b1" := by
  refine ⟨?_, by decide, by decide, by decide⟩
  intro fuel name t cs rest stack onpath visited hget hmr hop
  simp [iterLoop, hget, hmr, if_pos hop]

theorem loop_detected_names_reentered_witness :
    iterLoop lexC2 1 ["b"] [] {"b"} ∅ =
      some ⟨[], [], some (.e_loop "b")⟩ :=
  (loop_detected_names_reentered lexC2).1 0 "b" _ ["a", "b1"] [] [] {"b"} ∅
    rfl rfl (by simp)

/-! ### Pull-mode / push-mode equivalence (C8) -/

theorem cache_push_iterate_line_cache (k : Nat) (p : Parser) :
    ((Parser.cache_push)^[k] p).line_cache = p.line_cache := by
  induction k with
  | zero => rfl
  | succ k ih => rw [Function.iterate_succ_apply']; exact ih

/-- Popping after a push (possibly buried under further pushes) brings
the line-cache cursor back to its value at the push. -/
theorem pop_after_pushes (k : Nat) (q : Parser) :
    ((Parser.cache_push)^[k] q.cache_push).cache_pop.next_lineidx = q.next_lineidx ∧
    ((Parser.cache_push)^[k] q.cache_push).cache_pop.line_cache = q.line_cache := by
  cases k with
  | zero =>
    rw [Function.iterate_zero_apply, cache_pop_push]
    exact ⟨rfl, rfl⟩
  | succ k =>
    rw [Function.iterate_succ_apply', cache_pop_push]
    exact ⟨(cache_push_iterate_fields k q.cache_push).2.2.1,
      cache_push_iterate_line_cache k q.cache_push⟩

theorem cache_purge_shape (p : Parser) :
    (p.cache_purge.line_cache = p.line_cache ∧
      p.cache_purge.next_lineidx = p.next_lineidx) ∨
    p.cache_purge.next_lineidx = 0 := by
  unfold Parser.cache_purge
  by_cases h1 : p.idx_stack.isEmpty <;> by_cases h2 : p.line_cache.isEmpty <;>
    simp [h1, h2]

theorem purge_shape_abs {q p : Parser} (h1 : q.line_cache = p.line_cache)
    (h2 : q.next_lineidx = p.next_lineidx) :
    (q.cache_purge.line_cache = p.line_cache ∧
      q.cache_purge.next_lineidx = p.next_lineidx) ∨
    q.cache_purge.next_lineidx = 0 := by
  rcases cache_purge_shape q with ⟨a, b⟩ | c
  · exact Or.inl ⟨a.trans h1, b.trans h2⟩
  · exact Or.inr c

/-- Any continuing step of the driver either keeps the line cache and
its cursor untouched, or has just purged (cursor reset to 0). -/
theorem parserStep_cont_shape {p p' : Parser} (h : parserStep p = StepRes.cont p') :
    (p'.line_cache = p.line_cache ∧ p'.next_lineidx = p.next_lineidx) ∨
    p'.next_lineidx = 0 := by
  unfold parserStep at h
  cases hrem : p.current_iter.rem with
  | nil =>
    rw [hrem] at h
    cases hterm : p.current_iter.term with
    | some e => rw [hterm] at h; exact absurd h (by simp)
    | none =>
      rw [hterm] at h
      try dsimp only at h
      cases hob : p.on_bad_token with
      | error ep => rw [hob] at h; exact absurd h (by simp)
      | ok q => rw [hob] at h; exact absurd h (by simp)
  | cons y rest =>
    obtain ⟨name, token⟩ := y
    rw [hrem] at h
    try dsimp only at h
    cases hmr : token.matchRule with
    | none => rw [hmr] at h; exact absurd h (by simp)
    | some mr =>
      rw [hmr] at h
      cases mr with
      | names cs =>
        try dsimp only at h
        exact absurd h (by simp)
      | matcher matcher =>
        try dsimp only at h
        cases hafter : token.after with
        | none =>
          rw [hafter] at h
          try dsimp only at h
          exact absurd h (by simp)
        | some a =>
          rw [hafter] at h
          try dsimp only at h
          obtain ⟨k, hst, hk0⟩ := matcher_match_state matcher
            ({ p with current_iter := { p.current_iter with rem := rest } }.cache_push)
            ({ p with current_iter := { p.current_iter with rem := rest } }.cache_push).current_line
            ({ p with current_iter := { p.current_iter with rem := rest } }.cache_push).current_pos
          cases hm : matcher.match
              ({ p with current_iter := { p.current_iter with rem := rest } }.cache_push)
              ({ p with current_iter := { p.current_iter with rem := rest } }.cache_push).current_line
              ({ p with current_iter := { p.current_iter with rem := rest } }.cache_push).current_pos with
          | mk r p2 =>
            rw [hm] at h hst
            try dsimp only at hst
            have hpops := pop_after_pushes k
              { p with current_iter := { p.current_iter with rem := rest } }
            rw [← hst] at hpops
            cases r with
            | none =>
              try dsimp only at h
              cases hof : token.on_fail with
              | none =>
                rw [hof] at h
                try dsimp only at h
                injection h with h'
                subst h'
                exact Or.inl ⟨hpops.2, hpops.1⟩
              | some hk2 =>
                rw [hof] at h
                cases hk2 with
                | record tag =>
                  try dsimp only [applyHook] at h
                  injection h with h'
                  subst h'
                  exact Or.inl ⟨hpops.2, hpops.1⟩
                | raiseAbort tag =>
                  try dsimp only [applyHook] at h
                  exact absurd h (by simp)
            | some res =>
              obtain ⟨new_pos, value⟩ := res
              try dsimp only at h
              have hp2c : p2.line_cache = p.line_cache := by
                rw [hst]; exact cache_push_iterate_line_cache _ _
              have hp2n : p2.next_lineidx = p.next_lineidx := by
                rw [hst]; exact (cache_push_iterate_fields _ _).2.2.1
              cases hom : token.on_match with
              | none =>
                rw [hom] at h
                try dsimp only at h
                injection h with h'
                subst h'
                exact purge_shape_abs hp2c hp2n
              | some hk2 =>
                rw [hom] at h
                cases hk2 with
                | record tag =>
                  try dsimp only [applyHook] at h
                  injection h with h'
                  subst h'
                  exact purge_shape_abs hp2c hp2n
                | raiseAbort tag =>
                  try dsimp only [applyHook] at h
                  exact absurd h (by simp)

theorem parserStep_cont_lineInv {p p' : Parser}
    (h : parserStep p = StepRes.cont p')
    (hinv : p.next_lineidx ≤ p.line_cache.length) :
    p'.next_lineidx ≤ p'.line_cache.length := by
  rcases parserStep_cont_shape h with ⟨h1, h2⟩ | h0
  · rw [h1, h2]; exact hinv
  · omega

theorem splitlinesAux_ne_nil : ∀ (l acc : List Char), l ≠ [] ∨ acc ≠ [] →
    splitlinesAux l acc ≠ [] := by
  intro l
  induction l with
  | nil =>
    intro acc h
    rcases h with h | h
    · exact absurd rfl h
    · simp [splitlinesAux, h]
  | cons c rest ih =>
    intro acc h
    simp only [splitlinesAux]
    by_cases hc : c = '\n'
    · simp [hc]
    · rw [if_neg hc]
      exact ih (c :: acc) (Or.inr (by simp))

theorem splitBlock_ne_nil {b : List Char} (hb : b ≠ []) (eol : Bool) :
    splitBlock eol b ≠ [] := by
  unfold splitBlock splitlines
  have h := splitlinesAux_ne_nil b [] (Or.inl hb)
  cases eol <;> simpa using h

theorem cacheAdvance_nolines {p : Parser}
    (h : p.line_cache.length ≤ p.next_lineidx) : p.cacheAdvance = ([], p) := by
  unfold Parser.cacheAdvance
  rw [dif_neg (by omega)]

theorem cacheAdvance_lineInv {p : Parser}
    (hinv : p.next_lineidx ≤ p.line_cache.length) :
    p.cacheAdvance.2.next_lineidx ≤ p.cacheAdvance.2.line_cache.length := by
  unfold Parser.cacheAdvance
  by_cases h : p.next_lineidx < p.line_cache.length
  · rw [dif_pos h]; simpa using h
  · rw [dif_neg h]; exact hinv

theorem readline_from_cache {p : Parser} (source : List (List Char))
    (hcache : p.next_lineidx < p.line_cache.length) :
    p.readline source = (p.cacheAdvance.1, source, p.cacheAdvance.2) := by
  unfold Parser.readline
  rw [if_neg (by omega)]

theorem readline_source_nil {p : Parser}
    (h : p.line_cache.length ≤ p.next_lineidx) :
    p.readline [] = ([], [], p) := by
  unfold Parser.readline
  rw [if_pos h]
  dsimp only
  rw [cacheAdvance_nolines h]

theorem readline_closed_block {p : Parser} {b : List Char} (rest : List (List Char))
    (h : p.line_cache.length ≤ p.next_lineidx) (hb : b.isEmpty) :
    p.readline (b :: rest) = ([], [], p) := by
  unfold Parser.readline
  rw [if_pos h]
  dsimp only
  rw [if_pos hb]
  dsimp only
  rw [cacheAdvance_nolines h]

theorem readline_feed {p : Parser} {b : List Char} (rest : List (List Char))
    (h : p.line_cache.length ≤ p.next_lineidx) (hb : ¬ b.isEmpty) :
    p.readline (b :: rest) =
      ((p.feedBlock b).cacheAdvance.1, rest, (p.feedBlock b).cacheAdvance.2) := by
  unfold Parser.readline
  rw [if_pos h]
  dsimp only
  rw [if_neg hb]

theorem runParser_succ_step {p : Parser} {fuel : Nat} (source : List (List Char))
    (hpos : ¬ p.current_line.length ≤ p.current_pos) :
    runParser (fuel+1) source p =
      (match parserStep p with
        | .halt r => some r
        | .cont p' => runParser fuel source p') := by
  simp only [runParser]
  rw [if_neg hpos]

theorem runPush_succ_step {p : Parser} {fuel : Nat}
    (hpos : ¬ p.current_line.length ≤ p.current_pos) :
    runPush (fuel+1) p =
      (match parserStep p with
        | .halt r => some (.finished r)
        | .cont p' => runPush fuel p') := by
  simp only [runPush]
  rw [if_neg hpos]

theorem runPush_needLine {p : Parser} {fuel : Nat}
    (hpos : p.current_line.length ≤ p.current_pos)
    (hcache : ¬ p.next_lineidx < p.line_cache.length) :
    runPush (fuel+1) p = some (.needLine p (fuel+1)) := by
  simp only [runPush]
  rw [if_pos hpos, if_neg hcache]

theorem runPush_advance {p : Parser} {fuel : Nat}
    (hpos : p.current_line.length ≤ p.current_pos)
    (hcache : p.next_lineidx < p.line_cache.length) :
    runPush (fuel+1) p =
      (if (p.cacheAdvance.1).isEmpty then some (.finished (.ok p.cacheAdvance.2))
       else match parserStep p.cacheAdvance.2 with
        | .halt r => some (.finished r)
        | .cont p' => runPush fuel p') := by
  simp only [runPush]
  rw [if_pos hpos, if_pos hcache]

theorem pushDrive_finished {fuel : Nat} {p : Parser}
    {r : Except (RunError × Parser) Parser}
    (h : runPush fuel p = some (.finished r)) :
    ∀ blocks, pushDrive blocks fuel p = some r := by
  intro blocks
  cases blocks <;> simp only [pushDrive] <;> rw [h]

theorem pushDrive_congr {fuel fuel' : Nat} {p q : Parser}
    (h : runPush fuel p = runPush fuel' q) :
    ∀ blocks, pushDrive blocks fuel p = pushDrive blocks fuel' q := by
  intro blocks
  cases blocks <;> simp only [pushDrive] <;> rw [h]

/-- The same lines delivered in pull mode (`run_parser` with its
readline source) and in push/incremental mode (the resumable driver fed
one block at a time) produce identical runs, provided the line-cache
cursor is in bounds (as it always is for a parser built by
`Parser.init`). -/
theorem runParser_eq_pushDrive :
    ∀ (fuel : Nat) (blocks : List (List Char)) (p : Parser),
      p.next_lineidx ≤ p.line_cache.length →
      runParser fuel blocks p = pushDrive blocks fuel p := by
  intro fuel
  induction fuel with
  | zero =>
    intro blocks p _
    cases blocks <;> rfl
  | succ fuel ih =>
    intro blocks p hinv
    by_cases hpos : p.current_line.length ≤ p.current_pos
    · by_cases hcache : p.next_lineidx < p.line_cache.length
      · -- a cached line is available: both modes advance on it
        have hpull : runParser (fuel+1) blocks p =
            (if (p.cacheAdvance.1).isEmpty then some (.ok p.cacheAdvance.2)
             else match parserStep p.cacheAdvance.2 with
              | .halt r => some r
              | .cont p' => runParser fuel blocks p') := by
          simp only [runParser]
          rw [if_pos hpos, readline_from_cache blocks hcache]
        have hpush := @runPush_advance p fuel hpos hcache
        have hinv2 := cacheAdvance_lineInv hinv
        rw [hpull]
        by_cases hline : (p.cacheAdvance.1).isEmpty
        · rw [if_pos hline] at hpush ⊢
          exact (pushDrive_finished hpush blocks).symm
        · rw [if_neg hline] at hpush ⊢
          cases hstep : parserStep p.cacheAdvance.2 with
          | halt r =>
            rw [hstep] at hpush
            have hp2 : runPush (fuel+1) p = some (.finished r) := hpush
            exact (pushDrive_finished hp2 blocks).symm
          | cont p3 =>
            rw [hstep] at hpush
            show runParser fuel blocks p3 = _
            rw [ih blocks p3 (parserStep_cont_lineInv hstep hinv2)]
            have hp2 : runPush (fuel+1) p = runPush fuel p3 := hpush
            exact (pushDrive_congr hp2 blocks).symm
      · -- the cache is exhausted: the push driver suspends here
        have hpush := @runPush_needLine p fuel hpos hcache
        have hlen : p.line_cache.length ≤ p.next_lineidx := by omega
        cases blocks with
        | nil =>
          have hpull : runParser (fuel+1) [] p = some (.ok p) := by
            simp only [runParser]
            rw [if_pos hpos, readline_source_nil hlen]
            rfl
          rw [hpull]
          simp only [pushDrive]
          rw [hpush]
        | cons b rest =>
          by_cases hb : b.isEmpty
          · have hpull : runParser (fuel+1) (b::rest) p = some (.ok p) := by
              simp only [runParser]
              rw [if_pos hpos, readline_closed_block rest hlen hb]
              rfl
            rw [hpull]
            simp only [pushDrive]
            rw [hpush]
            dsimp only
            rw [if_pos hb]
          · have hne : b ≠ [] := by simpa [List.isEmpty_iff] using hb
            have hsplit : (splitBlock p.eol_newline b).length ≥ 1 := by
              have h0 := splitBlock_ne_nil hne p.eol_newline
              cases hsb : splitBlock p.eol_newline b with
              | nil => exact absurd hsb h0
              | cons x xs => simp
            have hfeedlen : (p.feedBlock b).next_lineidx <
                (p.feedBlock b).line_cache.length := by
              simp only [Parser.feedBlock, List.length_append]
              omega
            have hpull : runParser (fuel+1) (b::rest) p =
                (if ((p.feedBlock b).cacheAdvance.1).isEmpty
                 then some (.ok (p.feedBlock b).cacheAdvance.2)
                 else match parserStep (p.feedBlock b).cacheAdvance.2 with
                  | .halt r => some r
                  | .cont p' => runParser fuel rest p') := by
              simp only [runParser]
              rw [if_pos hpos, readline_feed rest hlen hb]
            rw [hpull]
            have hpd : pushDrive (b::rest) (fuel+1) p =
                pushDrive rest (fuel+1) (p.feedBlock b) := by
              simp only [pushDrive]
              rw [hpush]
              dsimp only
              rw [if_neg hb]
            rw [hpd]
            have hposf : (p.feedBlock b).current_line.length ≤
                (p.feedBlock b).current_pos := hpos
            have hpushf := @runPush_advance (p.feedBlock b) fuel hposf hfeedlen
            have hinv2 := cacheAdvance_lineInv (le_of_lt hfeedlen)
            by_cases hline : ((p.feedBlock b).cacheAdvance.1).isEmpty
            · rw [if_pos hline] at hpushf ⊢
              exact (pushDrive_finished hpushf rest).symm
            · rw [if_neg hline] at hpushf ⊢
              cases hstep : parserStep (p.feedBlock b).cacheAdvance.2 with
              | halt r =>
                rw [hstep] at hpushf
                have hp2 : runPush (fuel+1) (p.feedBlock b) =
                    some (.finished r) := hpushf
                exact (pushDrive_finished hp2 rest).symm
              | cont p3 =>
                rw [hstep] at hpushf
                show runParser fuel rest p3 = _
                rw [ih rest p3 (parserStep_cont_lineInv hstep hinv2)]
                have hp2 : runPush (fuel+1) (p.feedBlock b) =
                    runPush fuel p3 := hpushf
                exact (pushDrive_congr hp2 rest).symm
    · -- mid-line: both modes take the same step
      have hpull := @runParser_succ_step p fuel blocks hpos
      have hpush := @runPush_succ_step p fuel hpos
      rw [hpull]
      cases hstep : parserStep p with
      | halt r =>
        rw [hstep] at hpush
        have hp2 : runPush (fuel+1) p = some (.finished r) := hpush
        exact (pushDrive_finished hp2 blocks).symm
      | cont p3 =>
        rw [hstep] at hpush
        show runParser fuel blocks p3 = _
        rw [ih blocks p3 (parserStep_cont_lineInv hstep hinv)]
        have hp2 : runPush (fuel+1) p = runPush fuel p3 := hpush
        exact (pushDrive_congr hp2 blocks).symm

/-- C8: For every token table and every sequence of input lines,
delivering the lines in pull mode (`parse_lines`, a line-producing
function drained by `run_parser`) and delivering the same lines in
push/incremental mode (`pushDrive`, the spec-modelled resumable driver
fed one line at a time) produce identical runs from a fresh parser --
in particular, the identical ordered sequence of matched
`(token name, value)` pairs. -/
theorem pull_push_same_tokens (lexer : Lexer) (eol : Bool) (fuel : Nat)
    (lines : List (List Char)) :
    parse_lines (Parser.init lexer eol) fuel lines =
      pushDrive lines fuel (Parser.init lexer eol) ∧
    (runEvents (parse_lines (Parser.init lexer eol) fuel lines)).map matchedOf =
      (runEvents (pushDrive lines fuel (Parser.init lexer eol))).map matchedOf := by
  have h := runParser_eq_pushDrive fuel lines (Parser.init lexer eol)
    (Nat.le_refl 0)
  refine ⟨h, ?_⟩
  show (runEvents (runParser fuel lines (Parser.init lexer eol))).map matchedOf = _
  rw [h]

/-! ### Hook ordering (C9) and the unmatched-token handler (C4) -/

/-- The grammar of `test_on_match_call_ignoring`: a losing candidate
with an `on_fail` hook before a winning candidate with an `on_match`
hook. -/
def lexC9 : Lexer :=
  { begin := "begin"
    table := [
      ("begin", ⟨some (.names ["maybe_me", "or_maybe_this_one"]), none, none, none⟩),
      ("maybe_me", ⟨some (.matcher (msMk "not me!".toList false)),
        some (.static "finish"), none, some (.record "fail0")⟩),
      ("or_maybe_this_one", ⟨some (.matcher (Matcher.mre (fun line pos =>
        if (line.drop pos).take 8 = "matchme!".toList then some 8
        else if (line.drop pos).take 13 = "matchsomeone!".toList then some 13
        else none))), some (.static "finish"), some (.record "match1"), none⟩),
      ("finish", ⟨some (.matcher (Matcher.mre (fun line pos =>
        if pos = line.length then some 0
        else if line.drop pos = ['\n'] then some 1 else none))),
        some (.static "should not happen!"), none, none⟩)] }

/-- A failed match attempt returns the parser exactly as given. -/
theorem matcher_fail_state {m : Matcher} {q p2 : Parser} {line : List Char}
    {pos : Nat} (h : m.match q line pos = (none, p2)) : p2 = q := by
  obtain ⟨k, hst, hk0⟩ := matcher_match_state m q line pos
  rw [h] at hst hk0
  have hk : k = 0 := hk0 rfl
  subst hk
  exact hst

/-- C9: When a candidate token's matcher fails at the current position,
the driver restores the pre-attempt state, fires the candidate's
`on_fail` hook, and continues the same step with the remaining
candidates -- the fail hook does not prevent a later candidate at the
same position from succeeding; concretely, on the test grammar over
`"matchme!"` the run succeeds and the hooks are observed in order:
the losing candidate's fail hook first, then the winner's match, then
the winner's match hook. -/
theorem on_fail_then_later_match :
    (∀ (p : Parser) name token rest (m : Matcher) a tag,
      p.current_iter.rem = (name, token) :: rest →
      token.matchRule = some (.matcher m) →
      token.after = some a →
      (∀ q : Parser, q.current_line = p.current_line → q.current_pos = p.current_pos →
        (m.match q q.current_line q.current_pos).1 = none) →
      token.on_fail = some (.record tag) →
      parserStep p = .cont { p with
        current_iter := { rem := rest, term := p.current_iter.term }
        events := p.events ++ [.hook tag] }) ∧
    runEvents (parse_lines (Parser.init lexC9 false) 10 ["matchme!".toList]) =
      some [.hook "fail0",
            .matched "or_maybe_this_one" "matchme!".toList,
            .hook "match1"] ∧
    runError (parse_lines (Parser.init lexC9 false) 10 ["matchme!".toList]) =
      some none := by
  refine ⟨?_, by decide, by decide⟩
  intro p name token rest m a tag hrem hmr hafter hfail hof
  unfold parserStep
  rw [hrem]
  try dsimp only
  rw [hmr, hafter]
  try dsimp only
  split
  next p2 heq =>
    have hp2 := matcher_fail_state heq
    rw [hof]
    try dsimp only [applyHook]
    rw [hp2, cache_pop_push]
  next new_pos value p2 heq =>
    have hcontra := hfail
      ({ p with current_iter := { p.current_iter with rem := rest } }.cache_push)
      rfl rfl
    rw [heq] at hcontra
    exact absurd hcontra (by simp)

theorem on_fail_then_later_match_witness :
    parserStep (Parser.init lexC9 false) = .cont
      { Parser.init lexC9 false with
        current_iter := { rem := ((Parser.init lexC9 false).current_iter.rem).tail
                          term := (Parser.init lexC9 false).current_iter.term }
        events := (Parser.init lexC9 false).events ++ [.hook "fail0"] } :=
  on_fail_then_later_match.1 (Parser.init lexC9 false) "maybe_me" _ _ _ _ "fail0"
    rfl rfl rfl (fun q hl hp => by rw [hl, hp]; rfl) rfl

/-- A one-candidate table whose candidate never matches `"X"`. -/
def lexC4 : Lexer :=
  { begin := "begin"
    table := [("begin", ⟨some (.matcher (msMk "Y".toList false)),
      some (.static "finish"), none, none⟩)] }

/-- C4 counterexample: with a declared unmatched-token handler that
records and returns (does not abort), exhaustion of the decision
sequence ends the parse normally -- `run_parser` executes
`self.on_bad_token(); break` -- and no `NoMatch` error is raised,
contradicting the claim that NoMatch is raised whenever the handler
does not itself abort. -/
theorem no_match_nonaborting_handler_cex :
    runError (runParser 10 ["X".toList]
      { Parser.init lexC4 false with bad_token_handler := some (.record "handled") }) =
      some none ∧
    runEvents (runParser 10 ["X".toList]
      { Parser.init lexC4 false with bad_token_handler := some (.record "handled") }) =
      some [.hook "handled"] := by
  exact ⟨by decide, by decide⟩

/-- C4 (amended): whenever the decision sequence for the current state
is exhausted with no candidate matching, the driver invokes the
unmatched-token handler; if no handler is declared, `NoMatch` is raised
carrying the current line number and the 1-based column
(`current_pos + 1`) -- in particular, for input `"X"` where every
candidate fails at the start of parsing, the error reports line 1,
column 1; a declared handler that raises propagates its exception; and
a declared handler that returns without aborting ends the parse
normally, with no NoMatch raised. -/
theorem no_match_raised_on_exhaustion :
    (∀ p : Parser, p.current_iter.rem = [] → p.current_iter.term = none →
      p.bad_token_handler = none →
      parserStep p = .halt (.error (.lexer
        (.e_no_match p.current_lineno (p.current_pos + 1)), p))) ∧
    (∀ (p : Parser) tag, p.current_iter.rem = [] → p.current_iter.term = none →
      p.bad_token_handler = some (.raiseAbort tag) →
      parserStep p = .halt (.error (.hookRaise tag, p))) ∧
    (∀ (p : Parser) tag, p.current_iter.rem = [] → p.current_iter.term = none →
      p.bad_token_handler = some (.record tag) →
      parserStep p = .halt (.ok { p with events := p.events ++ [.hook tag] })) ∧
    runError (parse_lines (Parser.init lexC4 false) 10 ["X".toList]) =
      some (some (.lexer (.e_no_match 1 1))) := by
  refine ⟨?_, ?_, ?_, by decide⟩
  · intro p hrem hterm hh
    unfold parserStep
    rw [hrem, hterm]
    try dsimp only
    unfold Parser.on_bad_token
    rw [hh]
  · intro p tag hrem hterm hh
    unfold parserStep
    rw [hrem, hterm]
    try dsimp only
    unfold Parser.on_bad_token
    rw [hh]
    rfl
  · intro p tag hrem hterm hh
    unfold parserStep
    rw [hrem, hterm]
    try dsimp only
    unfold Parser.on_bad_token
    nth_rewrite 1 [hh]
    rfl

theorem no_match_raised_on_exhaustion_witness :
    parserStep { Parser.init lexC4 false with current_iter := ⟨[], none⟩ } =
      .halt (.error (.lexer (.e_no_match 0 1),
        { Parser.init lexC4 false with current_iter := ⟨[], none⟩ })) :=
  no_match_raised_on_exhaustion.1
    { Parser.init lexC4 false with current_iter := ⟨[], none⟩ } rfl rfl rfl

end Minilexer
